import Mathlib

/-!
Verification development for the `ics-event-api` repository.

The repository is a small Flask web API around a recurrence-aware event
normalization engine:

* `app/event.py` defines the `EventRecurrence` and `Event` dataclasses
  (derived fields computed in `__post_init__`), the recurrence describer
  `EventRecurrence._rrule_to_text`, and the HTML sanitizer
  `Event._clean_html`.
* `app/event_fetcher.py` defines a second, module-level copy of the
  describer `_rrule_to_text`, the UTC normalizer `_ensure_datetime`, and
  the engine `_get_events_from_ics` which walks the VEVENT components of a
  parsed calendar, resolves recurrences against the Monday-midnight week
  boundary, filters past non-recurring events, and sorts the result by the
  ISO start string.

This file gives a shallow embedding of that code:

* UTC instants are modelled as `Int` seconds since the Unix epoch
  (1970-01-01 00:00:00 UTC); Python's floor division `//` on these is
  `Int.ediv`/`Int.emod` (divisors are positive throughout, where `ediv`
  agrees with floor division).
* The external libraries (`dateutil.rrule`, `icalendar`) are modelled by
  executable Lean functions that reproduce the behaviour the repository
  exercises; each model is marked as such in its doc comment.
* Fallible Python code (an uncaught exception) is an `Except String`
  result.

One genuine inconsistency of the source is modelled explicitly: the call
`Event(title, title_raw, description, start, end, is_all_day, recurrence)`
at `event_fetcher.py:121` passes seven positional arguments to the
generated `Event.__init__`, which accepts five (fields `title`, `start`,
`end`, `is_all_day` are declared `init=False` in `app/event.py`), so in
Python every iteration over a VEVENT raises `TypeError`.  The embedding
therefore has two layers: `processVEvent`/`getEventRows` give the
per-event data flow exactly as the call site and the function's docstring
("a list of event dictionaries" with keys title/description/start/end/
recurrence) describe it, and `get_events_from_ics` additionally models the
positional-argument binding failure of the constructor call.
-/

namespace IcsApi

/-! ## Time model

A UTC instant is an `Int` of seconds since 1970-01-01 00:00:00 UTC.
Calendar conversions use the standard civil-from-days / days-from-civil
algorithms (proleptic Gregorian), matching Python's `datetime`.
-/

/-- Seconds per day. -/
def secsPerDay : Int := 86400

/-- Seconds per week. -/
def secsPerWeek : Int := 604800

/-- Days since 1970-01-01 of the civil date `y-m-d` (proleptic Gregorian). -/
def daysFromCivil (y m d : Int) : Int :=
  let y2 := y - (if m ≤ 2 then 1 else 0)
  let era := y2 / 400
  let yoe := y2 - era * 400
  let mp := m + (if m > 2 then -3 else 9)
  let doy := (153 * mp + 2) / 5 + d - 1
  let doe := yoe * 365 + yoe / 4 - yoe / 100 + doy
  era * 146097 + doe - 719468

/-- Civil date `(y, m, d)` of a count of days since 1970-01-01. -/
def civilFromDays (z0 : Int) : Int × Int × Int :=
  let z := z0 + 719468
  let era := z / 146097
  let doe := z - era * 146097
  let yoe := (doe - doe / 1460 + doe / 36524 - doe / 146096) / 365
  let y := yoe + era * 400
  let doy := doe - (365 * yoe + yoe / 4 - yoe / 100)
  let mp := (5 * doy + 2) / 153
  let d := doy - (153 * mp + 2) / 5 + 1
  let m := mp + (if mp < 10 then 3 else -9)
  (y + (if m ≤ 2 then 1 else 0), m, d)

/-- UTC instant from civil date and time of day. -/
def mkUtc (y m d h mi s : Int) : Int :=
  daysFromCivil y m d * secsPerDay + h * 3600 + mi * 60 + s

/-- Python `datetime.weekday()`: Monday = 0 ... Sunday = 6.
1970-01-01 was a Thursday (weekday 3). -/
def pyWeekday (t : Int) : Int :=
  (t / secsPerDay + 3) % 7

/-- Seconds since midnight of the instant; `dt.time() == dt.time.min`
in the source is `timeOfDay t = 0`. -/
def timeOfDay (t : Int) : Int :=
  t % secsPerDay

/-- Zero-padded decimal rendering of a nonnegative number, as Python's
strftime-style fixed-width fields inside `datetime.isoformat()`. -/
def padNum (width : Nat) (n : Int) : String :=
  let s := toString n
  if s.length < width then
    String.mk (List.replicate (width - s.length) (Char.ofNat 48)) ++ s
  else s

/-- Model of Python `datetime.isoformat()` for a UTC-aware datetime with
zero microseconds: `YYYY-MM-DDTHH:MM:SS+00:00`. -/
def isoformat (t : Int) : String :=
  let days := t / secsPerDay
  let secs := t - days * secsPerDay
  let ymd := civilFromDays days
  let h := secs / 3600
  let mi := secs % 3600 / 60
  let s := secs % 60
  padNum 4 ymd.1 ++ "-" ++ padNum 2 ymd.2.1 ++ "-" ++ padNum 2 ymd.2.2 ++ "T" ++
    padNum 2 h ++ ":" ++ padNum 2 mi ++ ":" ++ padNum 2 s ++ "+00:00"

/-- A raw timestamp as it comes out of the ICS parser: a bare date, a naive
datetime, or a timezone-aware datetime (local clock seconds plus UTC offset
in seconds). -/
inductive PyTime where
  | date (days : Int)
  | naive (t : Int)
  | aware (clock : Int) (utcOffset : Int)
deriving DecidableEq, Repr

/-- Model of `_ensure_datetime` (event_fetcher.py lines 33-50): a bare date
becomes midnight UTC; a naive datetime is assumed UTC; an aware datetime is
converted to UTC. -/
def ensure_datetime : PyTime → Int
  | PyTime.date d => d * secsPerDay
  | PyTime.naive t => t
  | PyTime.aware clock off => clock - off

/-- Model of event_fetcher.py lines 105-106: subtract `weekday` days from
the (normalized) reference time, then truncate the time of day to midnight. -/
def week_start (t : Int) : Int :=
  let m := t - secsPerDay * pyWeekday t
  secsPerDay * (m / secsPerDay)

/-! ## Python string helpers -/

/-- Python whitespace for `str.strip`, `str.split` and the regex class
`\s` (ASCII range). -/
def pyWs (c : Char) : Bool :=
  c = ' ' || c = '\t' || c = '\n' || c = '\r' || c = Char.ofNat 11 || c = Char.ofNat 12

/-- Python `str.strip()` on a character list. -/
def pyStrip (l : List Char) : List Char :=
  ((l.dropWhile pyWs).reverse.dropWhile pyWs).reverse

/-- Python `str.strip()`. -/
def pyStripS (s : String) : String :=
  String.mk (pyStrip s.data)

/-- Python `str.split()` with no argument: split on runs of whitespace,
discarding empty fields. -/
def pySplit : List Char → List Char → List (List Char)
  | [], acc => if acc.isEmpty then [] else [acc.reverse]
  | c :: t, acc =>
    if pyWs c then
      if acc.isEmpty then pySplit t [] else acc.reverse :: pySplit t []
    else pySplit t (c :: acc)

/-- Python `str.upper()` restricted to ASCII letters (the only case the
repository exercises). -/
def pyUpper (l : List Char) : List Char :=
  l.map Char.toUpper

/-- Model of the title derivation
`' '.join(title_raw.strip().split()[:3]).upper()` used both at
event_fetcher.py line 114 and in `Event.__post_init__`. -/
def derive_title (s : String) : String :=
  String.mk (pyUpper (List.intercalate [' '] ((pySplit (pyStrip s.data) []).take 3)))

/-! ## Recurrence frequencies and the two describers -/

/-- The seven frequency constants of `dateutil.rrule`
(`YEARLY, MONTHLY, WEEKLY, DAILY, HOURLY, MINUTELY, SECONDLY`). -/
inductive Freq where
  | yearly | monthly | weekly | daily | hourly | minutely | secondly
deriving DecidableEq, Repr

/-- Translation of `EventRecurrence._rrule_to_text` (event.py lines 26-54):
the `freq_map` dictionary holds the four known frequencies; lookup failure
falls through to `"REPEATING"`. -/
def EventRecurrence_rrule_to_text (freq : Freq) (interval : Nat) : String :=
  let freq_map : Freq → Option String := fun f =>
    match f with
    | Freq.daily => some "DAILY"
    | Freq.weekly => some "WEEKLY"
    | Freq.monthly => some "MONTHLY"
    | Freq.yearly => some "YEARLY"
    | _ => none
  match freq_map freq with
  | some nm =>
    if interval = 1 then nm
    else if interval = 2 && freq = Freq.weekly then "BI-WEEKLY"
    else if interval = 2 && freq = Freq.daily then "BI-DAILY"
    else "EVERY " ++ toString interval ++ " " ++ nm
  | none => "REPEATING"

/-- Translation of the module-level `_rrule_to_text`
(event_fetcher.py lines 52-80), kept as a separate definition because the
source keeps a separate copy. -/
def fetcher_rrule_to_text (freq : Freq) (interval : Nat) : String :=
  let freq_map : Freq → Option String := fun f =>
    match f with
    | Freq.daily => some "DAILY"
    | Freq.weekly => some "WEEKLY"
    | Freq.monthly => some "MONTHLY"
    | Freq.yearly => some "YEARLY"
    | _ => none
  match freq_map freq with
  | some nm =>
    if interval = 1 then nm
    else if interval = 2 && freq = Freq.weekly then "BI-WEEKLY"
    else if interval = 2 && freq = Freq.daily then "BI-DAILY"
    else "EVERY " ++ toString interval ++ " " ++ nm
  | none => "REPEATING"

/-! ## The HTML sanitizer `Event._clean_html` (event.py lines 81-94)

The method applies, in order:
1. `re.sub(r'<br\s*/?>', '\n', s, flags=IGNORECASE)`
2. `re.sub(r'<hr\s*/?>', '\n', s, flags=IGNORECASE)`
3. `re.sub(r'&#10;', '\n', s)`
4. `re.sub(r'&#13;', '\n', s)`
5. `re.sub(r'<[^>]+>', '', s)`
6. `.strip()`

Each `re.sub` scans left to right and replaces non-overlapping matches.
The scanners below reproduce that behaviour on character lists.
-/

/-- Attempt to match the tail of `<XY\s*/?>` (everything after the two
tag letters) at the head of the list: skip the maximal whitespace run,
then accept `>` or `/>`; returns the remainder after the match. -/
def matchTagTail (l : List Char) : Option (List Char) :=
  match l.dropWhile pyWs with
  | [] => none
  | c :: r =>
    if c = '>' then some r
    else if c = '/' then
      match r with
      | [] => none
      | d :: r2 => if d = '>' then some r2 else none
    else none

/-- Attempt to match `<xy\s*/?>` case-insensitively at the head of the
list, for tag letters `x y` (given in lower case); returns the remainder
after the match. -/
def matchTagNl (x y : Char) : List Char → Option (List Char)
  | c :: a :: b :: r =>
    if c = '<' ∧ a.toLower = x ∧ b.toLower = y then matchTagTail r else none
  | _ => none

theorem matchTagTail_length {l r : List Char} (h : matchTagTail l = some r) :
    r.length ≤ l.length := by
  have hd : (l.dropWhile pyWs).length ≤ l.length := (List.dropWhile_sublist pyWs).length_le
  cases hw : l.dropWhile pyWs with
  | nil => simp [matchTagTail, hw] at h
  | cons c t =>
    rw [hw] at hd
    simp only [List.length_cons] at hd
    by_cases hc : c = '>'
    · simp [matchTagTail, hw, hc] at h
      subst h; omega
    · by_cases hs : c = '/'
      · cases t with
        | nil => simp [matchTagTail, hw, hc, hs] at h
        | cons d t2 =>
          simp only [List.length_cons] at hd
          by_cases hdg : d = '>'
          · simp [matchTagTail, hw, hc, hs, hdg] at h
            subst h; omega
          · simp [matchTagTail, hw, hc, hs, hdg] at h
      · simp [matchTagTail, hw, hc, hs] at h

theorem matchTagNl_length {x y : Char} {l r : List Char}
    (h : matchTagNl x y l = some r) : r.length < l.length := by
  rcases l with _ | ⟨c, _ | ⟨a, _ | ⟨b, t⟩⟩⟩
  · simp [matchTagNl] at h
  · simp [matchTagNl] at h
  · simp [matchTagNl] at h
  · by_cases hcond : (c = '<' ∧ a.toLower = x ∧ b.toLower = y)
    · have hred : matchTagNl x y (c :: a :: b :: t) = matchTagTail t := by
        simp [matchTagNl, hcond]
      rw [hred] at h
      have := matchTagTail_length h
      simp only [List.length_cons]
      omega
    · simp [matchTagNl, hcond] at h

/-- One `re.sub(r'<xy\s*/?>', '\n', ·, flags=IGNORECASE)` pass, with the
number of scan steps bounded by a fuel (structural recursion; every step
consumes at least one input character, so fuel equal to the input length
never runs out — the middle equation is dead). -/
def subTagNlF (x y : Char) : Nat → List Char → List Char
  | _, [] => []
  | 0, l => l
  | fuel + 1, c :: t =>
    match matchTagNl x y (c :: t) with
    | some r => '\n' :: subTagNlF x y fuel r
    | none => c :: subTagNlF x y fuel t

/-- One `re.sub(r'<xy\s*/?>', '\n', ·, flags=IGNORECASE)` pass. -/
def subTagNl (x y : Char) (l : List Char) : List Char :=
  subTagNlF x y l.length l

/-- One `re.sub(pat, '\n', ·)` pass for a literal pattern `pat`
(used for the `&#10;` and `&#13;` entities), fuelled like
`subTagNlF`. -/
def substPatF (p : List Char) : Nat → List Char → List Char
  | _, [] => []
  | 0, l => l
  | fuel + 1, c :: t =>
    if p.isPrefixOf (c :: t) then
      '\n' :: substPatF p fuel (t.drop (p.length - 1))
    else
      c :: substPatF p fuel t

/-- One `re.sub(pat, '\n', ·)` pass for a literal pattern `pat`. -/
def substPat (p : List Char) (l : List Char) : List Char :=
  substPatF p l.length l

/-- The `&#10;` pattern. -/
def ent10 : List Char := ['&', '#', '1', '0', ';']

/-- The `&#13;` pattern. -/
def ent13 : List Char := ['&', '#', '1', '3', ';']

/-- Split a list at its first `>`: returns `(gap, rest)` with
`l = gap ++ '>' :: rest` and no `>` inside `gap`. -/
def splitAtGt : List Char → Option (List Char × List Char)
  | [] => none
  | c :: t =>
    if c = '>' then some ([], t)
    else (splitAtGt t).map (fun pr => (c :: pr.1, pr.2))

theorem splitAtGt_length {l : List Char} {gap rest : List Char}
    (h : splitAtGt l = some (gap, rest)) : rest.length < l.length := by
  induction l generalizing gap rest with
  | nil => exact absurd h (by simp [splitAtGt])
  | cons c t ih =>
    unfold splitAtGt at h
    split at h
    · simp only [Option.some.injEq, Prod.mk.injEq] at h
      rw [← h.2]
      simp only [List.length_cons]
      omega
    · cases hs : splitAtGt t with
      | none => rw [hs] at h; exact absurd h (by simp)
      | some pr =>
        obtain ⟨g2, r2⟩ := pr
        rw [hs] at h
        simp only [Option.map, Option.some.injEq, Prod.mk.injEq] at h
        have hlt := ih hs
        rw [← h.2]
        simp only [List.length_cons]
        omega

/-- The `re.sub(r'<[^>]+>', '', ·)` pass: at each `<`, a match extends to
the first later `>` provided at least one character lies strictly between;
matched spans are removed, everything else is copied.  Fuelled like
`subTagNlF`. -/
def removeTagsF : Nat → List Char → List Char
  | _, [] => []
  | 0, l => l
  | fuel + 1, c :: t =>
    if c = '<' then
      match splitAtGt t with
      | some (gap, rest) =>
        if gap.isEmpty then c :: removeTagsF fuel t else removeTagsF fuel rest
      | none => c :: t
    else c :: removeTagsF fuel t

/-- The `re.sub(r'<[^>]+>', '', ·)` pass. -/
def removeTags (l : List Char) : List Char :=
  removeTagsF l.length l

/-- Translation of `Event._clean_html` on character lists. -/
def clean_html_list (l : List Char) : List Char :=
  pyStrip (removeTags (substPat ent13 (substPat ent10
    (subTagNl 'h' 'r' (subTagNl 'b' 'r' l)))))

/-- Translation of `Event._clean_html` (event.py lines 81-94). -/
def clean_html (s : String) : String :=
  String.mk (clean_html_list s.data)

/-! ## Model of the external `dateutil.rrule` capability

The repository delegates recurrence-rule parsing and expansion to
`dateutil.rrule.rrulestr` / `rrule.after`.  The model below reproduces the
behaviour the repository exercises: parsing of `FREQ` (mandatory, one of
the seven frequency names), `INTERVAL` (positive integer, default 1),
`COUNT` and `UNTIL`; any other content raises, which the model renders as
`Except.error`.  `after t` returns the first occurrence strictly after
`t`.  For the fixed-step frequencies the occurrence sequence is
`anchor + k * step`; for `MONTHLY`/`YEARLY` the anchor's day-of-month is
kept and months lacking it are skipped (a bounded search stands in for
dateutil's unbounded iterator; the bound is far beyond anything the
claims evaluate). -/
structure RRuleObj where
  freq : Freq
  interval : Nat
  count : Option Nat
  untilT : Option Int
  dtstart : Int
deriving DecidableEq, Repr

/-- Frequency names accepted in `FREQ=`. -/
def parseFreqName : String → Option Freq
  | "YEARLY" => some Freq.yearly
  | "MONTHLY" => some Freq.monthly
  | "WEEKLY" => some Freq.weekly
  | "DAILY" => some Freq.daily
  | "HOURLY" => some Freq.hourly
  | "MINUTELY" => some Freq.minutely
  | "SECONDLY" => some Freq.secondly
  | _ => none

/-- Parse a fixed-width block of decimal digits as a number; `none` if any
character is not a digit. -/
def parseDigits (l : List Char) : Option Nat :=
  if l ≠ [] ∧ l.all Char.isDigit then
    some (l.foldl (fun acc c => acc * 10 + (c.toNat - 48)) 0)
  else none

/-- Parse an `UNTIL=` value: `YYYYMMDD` or `YYYYMMDDTHHMMSS` with an
optional trailing `Z`. -/
def parseUntilValue (s : String) : Option Int :=
  let l := s.data
  let core := if l.getLast? = some 'Z' then l.dropLast else l
  match parseDigits (core.take 8) with
  | none => none
  | some ymd =>
    let rest := core.drop 8
    let y : Int := (ymd / 10000 : Nat)
    let m : Int := ((ymd / 100) % 100 : Nat)
    let d : Int := (ymd % 100 : Nat)
    if rest = [] then
      some (mkUtc y m d 0 0 0)
    else
      match rest with
      | 'T' :: hms =>
        match parseDigits (hms.take 6) with
        | some hmsn =>
          if hms.length = 6 then
            some (mkUtc y m d ((hmsn / 10000 : Nat)) (((hmsn / 100) % 100 : Nat)) ((hmsn % 100 : Nat)))
          else none
        | none => none
      | _ => none

/-- Split a character list on a separator character, keeping empty
fields, as Python `str.split(sep)` and Lean `String.splitOn` do. -/
def splitOnChar (sep : Char) : List Char → List Char → List (List Char)
  | [], acc => [acc.reverse]
  | c :: t, acc =>
    if c = sep then acc.reverse :: splitOnChar sep t []
    else splitOnChar sep t (c :: acc)

/-- One `NAME=VALUE` part of a recurrence rule, folded into the object
under construction. -/
def applyRulePart (r : RRuleObj) (part : List Char) : Except String RRuleObj :=
  match splitOnChar '=' part [] with
  | [k, v] =>
    if k = "FREQ".data then
      match parseFreqName (String.mk v) with
      | some f => Except.ok { r with freq := f }
      | none => Except.error ("ValueError: invalid FREQ value " ++ String.mk v)
    else if k = "INTERVAL".data then
      match parseDigits v with
      | some n => Except.ok { r with interval := n }
      | none => Except.error ("ValueError: invalid INTERVAL value " ++ String.mk v)
    else if k = "COUNT".data then
      match parseDigits v with
      | some n => Except.ok { r with count := some n }
      | none => Except.error ("ValueError: invalid COUNT value " ++ String.mk v)
    else if k = "UNTIL".data then
      match parseUntilValue (String.mk v) with
      | some t => Except.ok { r with untilT := some t }
      | none => Except.error ("ValueError: invalid UNTIL value " ++ String.mk v)
    else
      Except.error ("ValueError: unknown parameter " ++ String.mk k)
  | _ => Except.error ("ValueError: malformed rule part " ++ String.mk part)

/-- Model of `dateutil.rrule.rrulestr(s, dtstart=anchor)`: an optional
`RRULE:` prefix, then semicolon-separated `NAME=VALUE` parts; `FREQ` is
mandatory.  Any malformed or unknown content is a raised exception,
modelled as `Except.error`. -/
def rrulestr (s : String) (anchor : Int) : Except String RRuleObj :=
  let l := s.data
  let body := if "RRULE:".data.isPrefixOf l then l.drop 6 else l
  let parts := splitOnChar ';' body []
  if parts.all (fun p => !("FREQ=".data.isPrefixOf p)) then
    Except.error "ValueError: rrule string has no FREQ"
  else
    parts.foldlM applyRulePart
      { freq := Freq.yearly, interval := 1, count := none, untilT := none, dtstart := anchor }

/-- Seconds step of the fixed-step frequencies; `none` for the
calendar-based ones. -/
def freqStep : Freq → Option Int
  | Freq.weekly => some secsPerWeek
  | Freq.daily => some secsPerDay
  | Freq.hourly => some 3600
  | Freq.minutely => some 60
  | Freq.secondly => some 1
  | _ => none

/-- Number of days in a civil month. -/
def daysInMonth (y m : Int) : Int :=
  daysFromCivil (if m = 12 then y + 1 else y) (if m = 12 then 1 else m + 1) 1 -
    daysFromCivil y m 1

/-- The `k`-th occurrence slot of a calendar-based rule: shift the anchor
date by `k * interval` months (or `12 * interval` for yearly), keeping the
anchor's day-of-month and time of day; slots whose month lacks that day
are skipped (`none`), as dateutil does. -/
def monthSlot (r : RRuleObj) (k : Nat) : Option Int :=
  let anchorDays := r.dtstart / secsPerDay
  let tod := timeOfDay r.dtstart
  let ymd := civilFromDays anchorDays
  let stepMonths : Int := (if r.freq = Freq.yearly then 12 * r.interval else r.interval)
  let ym := ymd.1 * 12 + (ymd.2.1 - 1) + k * stepMonths
  let y2 := ym / 12
  let m2 := ym % 12 + 1
  if ymd.2.2 ≤ daysInMonth y2 m2 then
    some (daysFromCivil y2 m2 ymd.2.2 * secsPerDay + tod)
  else none

/-- COUNT exhaustion test. -/
def countExhausted (count : Option Nat) (emitted : Nat) : Bool :=
  match count with
  | some n => n ≤ emitted
  | none => false

/-- UNTIL bound test: the occurrence lies beyond the `UNTIL` limit. -/
def pastUntil (untilT : Option Int) (occ : Int) : Bool :=
  match untilT with
  | some u => u < occ
  | none => false

/-- Bounded search for the first calendar-based occurrence strictly after
`t`, counting emitted occurrences against `COUNT` and bounding by
`UNTIL`. -/
def monthAfterAux (r : RRuleObj) (t : Int) : Nat → Nat → Nat → Option Int
  | 0, _, _ => none
  | fuel + 1, k, emitted =>
    if countExhausted r.count emitted then none
    else
      match monthSlot r k with
      | some occ =>
        if pastUntil r.untilT occ then none
        else if t < occ then some occ
        else monthAfterAux r t fuel (k + 1) (emitted + 1)
      | none => monthAfterAux r t fuel (k + 1) emitted

/-- Model of `rrule.after(t)`: the first occurrence strictly after `t`, or
`none` when the rule is exhausted (by `COUNT` or `UNTIL`) before that. -/
def rruleAfter (r : RRuleObj) (t : Int) : Option Int :=
  if r.interval = 0 then none
  else
    match freqStep r.freq with
    | some unit =>
      let step := unit * r.interval
      let k : Int := if t < r.dtstart then 0 else (t - r.dtstart) / step + 1
      let occ := r.dtstart + k * step
      if (match r.count with | some n => decide ((n : Int) ≤ k) | none => false) then none
      else if pastUntil r.untilT occ then none
      else some occ
    | none => monthAfterAux r t 4800 0 0

/-! ## The `EventRecurrence` and `Event` dataclasses (app/event.py) -/

/-- The `EventRecurrence` dataclass: `text` is derived in
`__post_init__`, `rrule` is the raw rule string. -/
structure EventRecurrence where
  text : String
  rrule : String
deriving DecidableEq, Repr

/-- Model of `EventRecurrence.__post_init__` (event.py lines 16-24):
parse the raw rule string; on success derive `text` via
`_rrule_to_text`, on failure fall back to the diagnostic placeholder
`"Invalid rrule: {rrule}"`.  (The source parses with no anchor, which
defaults to the current time; the anchor does not influence `_freq` or
`_interval`, so the model passes 0.) -/
def EventRecurrence_post_init (rrule_raw : String) : EventRecurrence :=
  match rrulestr rrule_raw 0 with
  | Except.ok r => { text := EventRecurrence_rrule_to_text r.freq r.interval, rrule := rrule_raw }
  | Except.error _ => { text := "Invalid rrule: " ++ rrule_raw, rrule := rrule_raw }

/-- The `Event` dataclass of event.py: five `__init__` fields
(`title_raw`, `description`, `start_datetime`, `end_datetime`,
`recurrence`) and four derived `init=False` fields. -/
structure Event where
  title_raw : String
  description : String
  start_datetime : Int
  end_datetime : Int
  recurrence : Option EventRecurrence
  title : String
  start : String
  end_ : String
  is_all_day : Bool
deriving DecidableEq, Repr

/-- Model of `Event.__init__` plus `Event.__post_init__`
(event.py lines 70-79): strip the raw title, derive the display title,
render ISO strings, detect all-day, sanitize the description (a `None` or
empty description becomes the empty string). -/
def Event_init (title_raw : String) (description : Option String)
    (start_datetime end_datetime : Int) (recurrence : Option EventRecurrence) : Event :=
  let tr := pyStripS title_raw
  { title_raw := tr
  , description :=
      match description with
      | none => ""
      | some d => if d = "" then "" else clean_html d
  , start_datetime := start_datetime
  , end_datetime := end_datetime
  , recurrence := recurrence
  , title := derive_title tr
  , start := isoformat start_datetime
  , end_ := isoformat end_datetime
  , is_all_day := timeOfDay start_datetime = 0 && timeOfDay end_datetime = 0 }

/-! ## The engine `_get_events_from_ics` (event_fetcher.py lines 82-141)

A parsed calendar is modelled as the component list that `gcal.walk()`
yields: VEVENT components (with the fields the engine reads) and other
components (skipped by the `component.name == "VEVENT"` test).

The per-event value flow of lines 110-136 is captured by `Row`, holding
exactly the seven values the call site passes —
`Event(title, title_raw, description, start, end, is_all_day, recurrence)`
— together with the two underlying datetimes behind the `start`/`end`
ISO strings (bookkeeping mirroring the `start_datetime`/`end_datetime`
fields that the `Event` dataclass carries and excludes from output).

The constructor-compatibility fact is modelled separately: the generated
`Event.__init__` accepts five parameters (one defaulted), the call passes
seven positional arguments, so the Python call raises `TypeError`
(`pyBindPositional` below).  `getEventRows` is the engine under the row
semantics that the call site and the function's docstring describe;
`get_events_from_ics` additionally models the binding failure and is the
literal engine. -/
structure VEvent where
  dtstart : PyTime
  dtend : PyTime
  summary : String
  description : Option String
  rrule : Option String
deriving DecidableEq, Repr

/-- A component yielded by `gcal.walk()`. -/
inductive Component where
  | vevent (e : VEvent)
  | other
deriving DecidableEq, Repr

/-- The seven values of the `Event(...)` call at line 121 plus the two
underlying datetimes. -/
structure Row where
  title : String
  title_raw : String
  description : Option String
  start_dt : Int
  end_dt : Int
  start : String
  end_ : String
  is_all_day : Bool
  recurrence : Option EventRecurrence
deriving DecidableEq, Repr

/-- Lines 110-121: the row as first constructed, before any recurrence
handling (`recurrence = None`, original start/end). -/
def initialRow (c : VEvent) : Row :=
  let dtstart := ensure_datetime c.dtstart
  let dtend := ensure_datetime c.dtend
  { title := derive_title c.summary
  , title_raw := c.summary
  , description := c.description
  , start_dt := dtstart
  , end_dt := dtend
  , start := isoformat dtstart
  , end_ := isoformat dtend
  , is_all_day := timeOfDay dtstart = 0 && timeOfDay dtend = 0
  , recurrence := none }

/-- Lines 110-136 for one VEVENT under the documented row semantics (the
`Event(...)` call bound to the seven values the call site passes, as the
function's docstring describes): `Except.ok none` means the event is
dropped, `Except.ok (some row)` that `row` is appended, `Except.error`
that an uncaught exception aborts the whole request (the unguarded
`rrulestr` call at line 125).  This is the intended behavior only: in
the executed program the `TypeError` of line 121 fires before any of
lines 123-136 run — that literal behavior is `processVEventPy`. -/
def processVEvent (ws : Int) (c : VEvent) : Except String (Option Row) :=
  let dtstart := ensure_datetime c.dtstart
  let dtend := ensure_datetime c.dtend
  let event := initialRow c
  match c.rrule with
  | some rrule_raw =>
    match rrulestr rrule_raw dtstart with
    | Except.error e => Except.error e
    | Except.ok rr =>
      match rruleAfter rr ws with
      | some occ =>
        Except.ok (some { event with
          start_dt := occ
        , end_dt := occ + (dtend - dtstart)
        , start := isoformat occ
        , end_ := isoformat (occ + (dtend - dtstart))
        , recurrence := some { text := fetcher_rrule_to_text rr.freq rr.interval
                             , rrule := rrule_raw } })
      | none => Except.ok none
  | none =>
    if ws ≤ dtstart then Except.ok (some event) else Except.ok none

/-- The walk over the components, collecting appended rows in document
order; the first uncaught exception aborts. -/
def collectRows (step : VEvent → Except String (Option Row)) :
    List Component → Except String (List Row)
  | [] => Except.ok []
  | Component.other :: t => collectRows step t
  | Component.vevent e :: t =>
    match step e with
    | Except.error msg => Except.error msg
    | Except.ok none => collectRows step t
    | Except.ok (some r) =>
      match collectRows step t with
      | Except.error msg => Except.error msg
      | Except.ok rs => Except.ok (r :: rs)

/-- Code-point lexicographic string comparison, the order Python's
`<=` uses on `str` (and Lean's `String` order uses on `.data`). -/
def charListLe : List Char → List Char → Bool
  | [], _ => true
  | _ :: _, [] => false
  | a :: s, b :: t =>
    if a.toNat < b.toNat then true
    else if b.toNat < a.toNat then false
    else charListLe s t

/-- The comparison rules out a strict lexicographic descent the other
way. -/
theorem charListLe_iff_not_lex (s t : List Char) :
    charListLe s t = true ↔ ¬ List.Lex (fun a b => a < b) t s := by
  induction s generalizing t with
  | nil =>
    constructor
    · intro _ hlex
      cases hlex
    · intro _
      rfl
  | cons a as ih =>
    cases t with
    | nil =>
      simp only [charListLe]
      constructor
      · intro h
        exact absurd h (by simp)
      · intro h
        exact absurd List.Lex.nil h
    | cons b bs =>
      by_cases h1 : a.toNat < b.toNat
      · simp only [charListLe, if_pos h1, true_iff]
        intro hlex
        cases hlex with
        | rel hb => exact absurd (show b.toNat < a.toNat from hb) (by omega)
        | cons htl => exact absurd h1 (by omega)
      · by_cases h2 : b.toNat < a.toNat
        · simp only [charListLe, if_neg h1, if_pos h2, Bool.false_eq_true, false_iff,
            not_not]
          exact List.Lex.rel (show b < a from h2)
        · have hv1 : a.val.toNat = a.toNat := rfl
          have hv2 : b.val.toNat = b.toNat := rfl
          have hval : a = b := Char.eq_of_val_eq (UInt32.ext (by omega))
          subst hval
          simp only [charListLe, if_neg h1, if_neg h2]
          rw [ih bs]
          constructor
          · intro hn hlex
            cases hlex with
            | rel hb => exact absurd (show a.toNat < a.toNat from hb) (by omega)
            | cons htl => exact hn htl
          · intro hn htl
            exact hn (List.Lex.cons htl)

/-- The comparison is total. -/
theorem charListLe_total (s t : List Char) :
    charListLe s t = true ∨ charListLe t s = true := by
  induction s generalizing t with
  | nil => exact Or.inl rfl
  | cons a as ih =>
    cases t with
    | nil => exact Or.inr rfl
    | cons b bs =>
      by_cases h1 : a.toNat < b.toNat
      · exact Or.inl (by simp [charListLe, h1])
      · by_cases h2 : b.toNat < a.toNat
        · exact Or.inr (by simp [charListLe, h2])
        · rcases ih bs with h | h
          · exact Or.inl (by simp [charListLe, h1, h2, h])
          · exact Or.inr (by simp [charListLe, h1, h2, h])

/-- The comparison is transitive. -/
theorem charListLe_trans {s t u : List Char}
    (h1 : charListLe s t = true) (h2 : charListLe t u = true) :
    charListLe s u = true := by
  induction s generalizing t u with
  | nil => rfl
  | cons a as ih =>
    cases t with
    | nil => exact absurd h1 (by simp [charListLe])
    | cons b bs =>
      cases u with
      | nil => exact absurd h2 (by simp [charListLe])
      | cons c cs =>
        simp only [charListLe] at h1 h2 ⊢
        by_cases hab : a.toNat < b.toNat
        · by_cases hbc : b.toNat < c.toNat
          · rw [if_pos (by omega)]
          · rw [if_neg hbc] at h2
            by_cases hcb : c.toNat < b.toNat
            · rw [if_pos hcb] at h2
              exact absurd h2 (by simp)
            · rw [if_pos (by omega)]
        · rw [if_neg hab] at h1
          by_cases hba : b.toNat < a.toNat
          · rw [if_pos hba] at h1
            exact absurd h1 (by simp)
          · rw [if_neg hba] at h1
            by_cases hbc : b.toNat < c.toNat
            · rw [if_pos (by omega)]
            · rw [if_neg hbc] at h2
              by_cases hcb : c.toNat < b.toNat
              · rw [if_pos hcb] at h2
                exact absurd h2 (by simp)
              · rw [if_neg hcb] at h2
                rw [if_neg (by omega), if_neg (by omega)]
                exact ih h1 h2

/-- The sort key of line 139: Python compares the ISO `start` strings. -/
def rowLe (a b : Row) : Bool :=
  charListLe a.start.data b.start.data

/-- The Boolean sort key agrees with `≤` on the `start` strings. -/
theorem rowLe_le {x y : Row} (h : rowLe x y = true) : x.start ≤ y.start := by
  rw [String.le_iff_toList_le]
  apply le_of_not_lt
  intro hlt
  exact (charListLe_iff_not_lex x.start.data y.start.data).mp h hlt

/-- Insert a row into an already sorted list, after any element with an
equal-or-smaller key. -/
def insertRow (r : Row) : List Row → List Row
  | [] => [r]
  | x :: t => if rowLe x r then x :: insertRow r t else r :: x :: t

/-- Model of `sorted(events, key=lambda x: x.start)` (line 139): Python's
`sorted` is a stable ascending sort, here realized as stable insertion
sort (extensionally equal to any stable sort under the same total
preorder). -/
def pySorted (l : List Row) : List Row :=
  l.foldl (fun acc r => insertRow r acc) []

/-- The engine under the documented per-event row semantics (the data
flow of lines 98-141 with the `Event(...)` call bound to the seven
values the call site passes): normalize the reference time, compute the
week start, walk the VEVENTs, then sort by the ISO `start` string.
This is the docstring's intended behavior, not the executed one: the
literal engine, with the line-121 constructor `TypeError`, is
`get_events_from_ics` below. -/
def getEventRows (cal : List Component) (current_time : PyTime) :
    Except String (List Row) :=
  let ct := ensure_datetime current_time
  let ws := week_start ct
  match collectRows (processVEvent ws) cal with
  | Except.error msg => Except.error msg
  | Except.ok rows => Except.ok (pySorted rows)

/-- Python positional-argument binding: a call with `args` positional
arguments binds against a signature of `params` parameters of which
`defaulted` have defaults iff `params - defaulted ≤ args ≤ params`. -/
def pyBindPositional (params defaulted args : Nat) : Bool :=
  params - defaulted ≤ args && args ≤ params

/-- Parameters of the generated `Event.__init__` (event.py lines 56-67):
`title_raw`, `description`, `start_datetime`, `end_datetime`,
`recurrence`; the four `init=False` fields are excluded. -/
def Event_init_params : Nat := 5

/-- Of those, only `recurrence` is defaulted (`= None`). -/
def Event_init_defaulted : Nat := 1

/-- The call at event_fetcher.py line 121 passes seven positional
arguments: `title, title_raw, description, start, end, is_all_day,
recurrence`. -/
def fetcher_Event_call_args : Nat := 7

/-- The `TypeError` text Python raises for the failed binding (counting
`self`). -/
def event_init_type_error : String :=
  "TypeError: Event.__init__() takes from 5 to 6 positional arguments but 8 were given"

/-- Lines 110-136 for one VEVENT with the `Event(...)` constructor call of
line 121 modelled faithfully: when the positional binding fails, the
iteration raises `TypeError` before any recurrence handling. -/
def processVEventPy (ws : Int) (c : VEvent) : Except String (Option Row) :=
  if pyBindPositional Event_init_params Event_init_defaulted fetcher_Event_call_args then
    processVEvent ws c
  else Except.error event_init_type_error

/-- The literal `_get_events_from_ics` on a parsed calendar: as
`getEventRows`, but each VEVENT iteration performs the failing
constructor call of line 121. -/
def get_events_from_ics (cal : List Component) (current_time : PyTime) :
    Except String (List Row) :=
  let ct := ensure_datetime current_time
  let ws := week_start ct
  match collectRows (processVEventPy ws) cal with
  | Except.error msg => Except.error msg
  | Except.ok rows => Except.ok (pySorted rows)

/-! ## Sortedness of the output -/

theorem insertRow_mem {r y : Row} {l : List Row} (h : y ∈ insertRow r l) :
    y = r ∨ y ∈ l := by
  induction l with
  | nil => simpa [insertRow] using h
  | cons x t ih =>
    unfold insertRow at h
    by_cases hle : rowLe x r
    · rw [if_pos hle] at h
      rcases List.mem_cons.mp h with h1 | h2
      · exact Or.inr (by simp [h1])
      · rcases ih h2 with h3 | h4
        · exact Or.inl h3
        · exact Or.inr (by simp [h4])
    · rw [if_neg hle] at h
      rcases List.mem_cons.mp h with h1 | h2
      · exact Or.inl h1
      · exact Or.inr h2

theorem insertRow_pairwise {r : Row} {l : List Row}
    (h : l.Pairwise (fun a b => rowLe a b = true)) :
    (insertRow r l).Pairwise (fun a b => rowLe a b = true) := by
  induction l with
  | nil => simp [insertRow]
  | cons x t ih =>
    rw [List.pairwise_cons] at h
    obtain ⟨hx, ht⟩ := h
    by_cases hle : rowLe x r
    · rw [insertRow, if_pos hle, List.pairwise_cons]
      refine ⟨?_, ih ht⟩
      intro y hy
      rcases insertRow_mem hy with rfl | hy2
      · exact hle
      · exact hx y hy2
    · rw [insertRow, if_neg hle, List.pairwise_cons]
      have hrx : rowLe r x = true :=
        (charListLe_total x.start.data r.start.data).resolve_left hle
      refine ⟨?_, List.pairwise_cons.mpr ⟨hx, ht⟩⟩
      intro y hy
      rcases List.mem_cons.mp hy with rfl | hy2
      · exact hrx
      · exact charListLe_trans hrx (hx y hy2)

theorem pySorted_pairwise (l : List Row) :
    (pySorted l).Pairwise (fun a b => rowLe a b = true) := by
  suffices H : ∀ acc, acc.Pairwise (fun a b => rowLe a b = true) →
      (l.foldl (fun acc r => insertRow r acc) acc).Pairwise
        (fun a b => rowLe a b = true) by
    simpa [pySorted] using H [] (by simp)
  induction l with
  | nil => intro acc h; simpa using h
  | cons x t ih =>
    intro acc h
    simpa using ih (insertRow x acc) (insertRow_pairwise h)

/-! ## Concrete scenario values

Reference time: Wednesday 2024-07-17 12:00:00 UTC; the containing week
starts Monday 2024-07-15 00:00:00 UTC.  One non-recurring VEVENT a month
earlier, one weekly VEVENT anchored exactly two weeks before the
reference Wednesday. -/
def wednesdayRef : PyTime := PyTime.naive (mkUtc 2024 7 17 12 0 0)

/-- The Monday-midnight week start of the reference week. -/
def refWeekStart : Int := week_start (ensure_datetime wednesdayRef)

/-- Non-recurring VEVENT dated a month before the reference time. -/
def vevOld : VEvent :=
  { dtstart := PyTime.naive (mkUtc 2024 6 10 10 0 0)
  , dtend := PyTime.naive (mkUtc 2024 6 10 11 0 0)
  , summary := "Old Standup Meeting"
  , description := none
  , rrule := none }

/-- Weekly-recurring VEVENT anchored two weeks before the reference time,
no UNTIL. -/
def vevWeekly : VEvent :=
  { dtstart := PyTime.naive (mkUtc 2024 7 3 9 0 0)
  , dtend := PyTime.naive (mkUtc 2024 7 3 10 0 0)
  , summary := "Weekly Sync"
  , description := some "Agenda<br>items"
  , rrule := some "FREQ=WEEKLY" }

/-- The two-event calendar of the end-to-end scenario. -/
def scenarioCal : List Component :=
  [Component.vevent vevOld, Component.vevent vevWeekly]

/-- The row the engine's documented row semantics produces for the weekly
event in the scenario week. -/
def weeklyRow : Row :=
  match processVEvent refWeekStart vevWeekly with
  | Except.ok (some r) => r
  | _ => initialRow vevWeekly

/-- A non-recurring VEVENT starting exactly at the Monday midnight of the
reference week. -/
def vevMonday : VEvent :=
  { dtstart := PyTime.naive (mkUtc 2024 7 15 0 0 0)
  , dtend := PyTime.naive (mkUtc 2024 7 15 0 0 0)
  , summary := "Boundary"
  , description := none
  , rrule := none }

/-- A VEVENT whose declared recurrence rule does not parse. -/
def vevBadRule : VEvent :=
  { dtstart := PyTime.naive (mkUtc 2024 7 16 9 0 0)
  , dtend := PyTime.naive (mkUtc 2024 7 16 10 0 0)
  , summary := "Broken Rule"
  , description := none
  , rrule := some "FREQ=FOO" }

/-- Calendar containing the event with the unparseable rule. -/
def badRuleCal : List Component := [Component.vevent vevBadRule]

/-- This-week event used for the sort-order witness (the later one comes
first in document order). -/
def vevLater : VEvent :=
  { dtstart := PyTime.naive (mkUtc 2024 7 18 15 0 0)
  , dtend := PyTime.naive (mkUtc 2024 7 18 16 0 0)
  , summary := "Later"
  , description := none
  , rrule := none }

/-- This-week event used for the sort-order witness. -/
def vevEarlier : VEvent :=
  { dtstart := PyTime.naive (mkUtc 2024 7 16 8 0 0)
  , dtend := PyTime.naive (mkUtc 2024 7 16 9 0 0)
  , summary := "Earlier"
  , description := none
  , rrule := none }

/-- Two-event calendar whose document order is descending by start. -/
def twoEventCal : List Component :=
  [Component.vevent vevLater, Component.vevent vevEarlier]

/-- The sorted output of `twoEventCal`. -/
def twoEventRows : List Row :=
  match getEventRows twoEventCal wednesdayRef with
  | Except.ok rs => rs
  | _ => []

deriving instance DecidableEq for Except

/-! ## Sanitizer theory

`hasTagB` detects a remaining tag (a `<`, at least one non-`>` character,
then `>` — the pattern the source removes).  The key invariant of the
removal pass is `ltOkB`: every `<` in its output is either immediately
followed by `>` or has no `>` anywhere after it; such a list can contain
no tag. -/

/-- Condition on the text after a `<`: the very next character is `>`, or
no `>` occurs at all later. -/
def noGtHeadOk : List Char → Bool
  | [] => true
  | d :: r => d = '>' || !(decide ('>' ∈ d :: r))

/-- Every `<` is immediately followed by `>` or sees no later `>`. -/
def ltOkB : List Char → Bool
  | [] => true
  | c :: t => (if c = '<' then noGtHeadOk t else true) && ltOkB t

/-- A substring matching `<[^>]+>` exists. -/
def hasTagB : List Char → Bool
  | [] => false
  | c :: t =>
    (if c = '<' then
      (match splitAtGt t with
       | some (gap, _) => !gap.isEmpty
       | none => false)
     else false) || hasTagB t

theorem splitAtGt_eq_none {l : List Char} : splitAtGt l = none ↔ '>' ∉ l := by
  induction l with
  | nil => simp [splitAtGt]
  | cons c t ih =>
    constructor
    · intro h hm
      rcases List.mem_cons.mp hm with h1 | h1
      · rw [show splitAtGt (c :: t) = some ([], t) from by simp [splitAtGt, h1.symm]] at h
        exact absurd h (by simp)
      · by_cases hc : c = '>'
        · rw [show splitAtGt (c :: t) = some ([], t) from by simp [splitAtGt, hc]] at h
          exact absurd h (by simp)
        · rw [show splitAtGt (c :: t) =
              Option.map (fun pr => (c :: pr.1, pr.2)) (splitAtGt t) from by
            simp [splitAtGt, hc]] at h
          cases hs : splitAtGt t with
          | none => exact (ih.mp hs) h1
          | some pr => rw [hs] at h; exact absurd h (by simp)
    · intro h
      have hc : c ≠ '>' := fun hcc => h (by rw [hcc]; exact List.mem_cons_self _ _)
      have hnt : '>' ∉ t := fun hm => h (List.mem_cons_of_mem c hm)
      rw [show splitAtGt (c :: t) =
          Option.map (fun pr => (c :: pr.1, pr.2)) (splitAtGt t) from by
        simp [splitAtGt, hc]]
      rw [ih.mpr hnt]
      rfl

theorem splitAtGt_empty_gap {l rest : List Char}
    (h : splitAtGt l = some ([], rest)) : l = '>' :: rest := by
  cases l with
  | nil => exact absurd h (by simp [splitAtGt])
  | cons c t =>
    by_cases hc : c = '>'
    · rw [show splitAtGt (c :: t) = some ([], t) from by simp [splitAtGt, hc]] at h
      simp only [Option.some.injEq, Prod.mk.injEq] at h
      rw [hc, h.2]
    · rw [show splitAtGt (c :: t) =
          Option.map (fun pr => (c :: pr.1, pr.2)) (splitAtGt t) from by
        simp [splitAtGt, hc]] at h
      cases hs : splitAtGt t with
      | none => rw [hs] at h; exact absurd h (by simp)
      | some pr =>
        rw [hs] at h
        simp only [Option.map, Option.some.injEq, Prod.mk.injEq] at h
        exact absurd h.1 (by simp)

theorem noGtHeadOk_of_no_gt {t : List Char} (h : '>' ∉ t) : noGtHeadOk t = true := by
  cases t with
  | nil => rfl
  | cons d r => simp [noGtHeadOk, h]

theorem ltOkB_of_no_gt {l : List Char} (h : '>' ∉ l) : ltOkB l = true := by
  induction l with
  | nil => rfl
  | cons c t ih =>
    have ht : '>' ∉ t := fun hm => h (List.mem_cons_of_mem c hm)
    simp only [ltOkB, Bool.and_eq_true]
    refine ⟨?_, ih ht⟩
    by_cases hc : c = '<'
    · rw [if_pos hc]
      exact noGtHeadOk_of_no_gt ht
    · rw [if_neg hc]

theorem ltOkB_tail {c : Char} {t : List Char} (h : ltOkB (c :: t) = true) :
    ltOkB t = true := by
  simp only [ltOkB, Bool.and_eq_true] at h
  exact h.2

theorem ltOkB_suffix {l2 l1 : List Char} (hs : l2 <:+ l1) (h : ltOkB l1 = true) :
    ltOkB l2 = true := by
  obtain ⟨pre, rfl⟩ := hs
  induction pre with
  | nil => exact h
  | cons c t ih => exact ih (ltOkB_tail h)

theorem ltOkB_append_left {l1 l2 : List Char} (h : ltOkB (l1 ++ l2) = true) :
    ltOkB l1 = true := by
  induction l1 with
  | nil => rfl
  | cons c t ih =>
    simp only [List.cons_append, ltOkB, Bool.and_eq_true] at h
    simp only [ltOkB, Bool.and_eq_true]
    refine ⟨?_, ih h.2⟩
    by_cases hc : c = '<'
    · rw [if_pos hc]
      have h1 := h.1
      rw [if_pos hc] at h1
      cases t with
      | nil => rfl
      | cons d r =>
        by_cases hd : d = '>'
        · simp [noGtHeadOk, hd]
        · have h1b : noGtHeadOk (d :: (r ++ l2)) = true := h1
          have h2 : '>' ∉ d :: (r ++ l2) := by
            by_contra hmem
            rw [show noGtHeadOk (d :: (r ++ l2)) = false from by
              simp [noGtHeadOk, hd, hmem]] at h1b
            exact absurd h1b (by simp)
          have h3 : '>' ∉ d :: r := fun hm => h2 (by
            rcases List.mem_cons.mp hm with hm1 | hm1
            · exact hm1 ▸ List.mem_cons_self d (r ++ l2)
            · exact List.mem_cons_of_mem d (List.mem_append_left l2 hm1))
          exact noGtHeadOk_of_no_gt h3
    · rw [if_neg hc]

theorem ltOkB_prefix {l1 l2 : List Char} (hp : l1 <+: l2) (h : ltOkB l2 = true) :
    ltOkB l1 = true := by
  obtain ⟨suf, rfl⟩ := hp
  exact ltOkB_append_left h

theorem hasTagB_eq_false {l : List Char} (h : ltOkB l = true) : hasTagB l = false := by
  induction l with
  | nil => rfl
  | cons c t ih =>
    simp only [ltOkB, Bool.and_eq_true] at h
    simp only [hasTagB, Bool.or_eq_false_iff]
    refine ⟨?_, ih h.2⟩
    by_cases hc : c = '<'
    · rw [if_pos hc]
      have h1 := h.1
      rw [if_pos hc] at h1
      cases t with
      | nil => rfl
      | cons d r =>
        by_cases hd : d = '>'
        · rw [show splitAtGt (d :: r) = some ([], r) from by simp [splitAtGt, hd]]
          simp
        · have h2 : '>' ∉ d :: r := by
            by_contra hmem
            rw [show noGtHeadOk (d :: r) = false from by
              simp [noGtHeadOk, hd, hmem]] at h1
            exact absurd h1 (by simp)
          rw [splitAtGt_eq_none.mpr h2]
    · rw [if_neg hc]

theorem removeTagsF_ltOk : ∀ (fuel : Nat) (l : List Char), l.length ≤ fuel →
    ltOkB (removeTagsF fuel l) = true := by
  intro fuel
  induction fuel with
  | zero =>
    intro l hl
    cases l with
    | nil => rfl
    | cons c t => simp at hl
  | succ fuel ih =>
    intro l hl
    cases l with
    | nil => rfl
    | cons c t =>
      simp only [List.length_cons] at hl
      by_cases hc : c = '<'
      · subst hc
        cases hsp : splitAtGt t with
        | none =>
          have hstep : removeTagsF (fuel + 1) ('<' :: t) = '<' :: t := by
            simp [removeTagsF, hsp]
          rw [hstep]
          have hgt : '>' ∉ t := splitAtGt_eq_none.mp hsp
          simp [ltOkB, noGtHeadOk_of_no_gt hgt, ltOkB_of_no_gt hgt]
        | some pr =>
          obtain ⟨gap, rest⟩ := pr
          by_cases hgap : gap.isEmpty
          · have hgapnil : gap = [] := List.isEmpty_iff.mp hgap
            subst hgapnil
            have hstep : removeTagsF (fuel + 1) ('<' :: t) =
                '<' :: removeTagsF fuel t := by
              simp [removeTagsF, hsp]
            rw [hstep]
            have hteq : t = '>' :: rest := splitAtGt_empty_gap hsp
            have hfuel : 0 < fuel := by
              rw [hteq] at hl
              simp only [List.length_cons] at hl
              omega
            obtain ⟨g, rfl⟩ : ∃ g, fuel = g + 1 := ⟨fuel - 1, by omega⟩
            have hstep2 : removeTagsF (g + 1) t = '>' :: removeTagsF g rest := by
              rw [hteq]
              simp [removeTagsF]
            have hX : ltOkB (removeTagsF (g + 1) t) = true := ih t (by omega)
            have hhead : noGtHeadOk (removeTagsF (g + 1) t) = true := by
              rw [hstep2]
              simp [noGtHeadOk]
            simp [ltOkB, hX, hhead]
          · have hstep : removeTagsF (fuel + 1) ('<' :: t) = removeTagsF fuel rest := by
              simp [removeTagsF, hsp, hgap]
            rw [hstep]
            apply ih
            have := splitAtGt_length hsp
            omega
      · have hstep : removeTagsF (fuel + 1) (c :: t) = c :: removeTagsF fuel t := by
          simp [removeTagsF, hc]
        rw [hstep]
        simp [ltOkB, if_neg hc, ih t (by omega : t.length ≤ fuel)]

/-- The stripped result is a prefix of the front-stripped list. -/
theorem pyStrip_prefix_dropWhile (l : List Char) :
    pyStrip l <+: l.dropWhile pyWs := by
  have hz : (l.dropWhile pyWs).reverse.dropWhile pyWs <:+ (l.dropWhile pyWs).reverse :=
    List.dropWhile_suffix pyWs
  have hp := List.reverse_prefix.mpr hz
  rwa [List.reverse_reverse] at hp

/-- Stripping yields an infix of the original list. -/
theorem pyStrip_isInfix (l : List Char) : pyStrip l <:+: l :=
  (pyStrip_prefix_dropWhile l).isInfix.trans (List.dropWhile_suffix pyWs).isInfix

/-- No tag remains after the full sanitizer. -/
theorem clean_html_list_no_tag (l : List Char) :
    hasTagB (clean_html_list l) = false := by
  unfold clean_html_list
  apply hasTagB_eq_false
  have h1 : ltOkB (removeTags (substPat ent13 (substPat ent10
      (subTagNl 'h' 'r' (subTagNl 'b' 'r' l))))) = true :=
    removeTagsF_ltOk _ _ le_rfl
  have h2 := ltOkB_suffix (List.dropWhile_suffix pyWs) h1
  exact ltOkB_prefix (pyStrip_prefix_dropWhile _) (by
    exact ltOkB_suffix (List.dropWhile_suffix pyWs) h1)

/-! ### Reflection lemmas for the substitution pass -/

theorem substPatF_mem {p : List Char} {a : Char} :
    ∀ (fuel : Nat) (l : List Char), a ∈ substPatF p fuel l → a ∈ l ∨ a = '\n' := by
  intro fuel
  induction fuel with
  | zero =>
    intro l h
    cases l with
    | nil => exact absurd h (by simp [substPatF])
    | cons c t => exact Or.inl h
  | succ fuel ih =>
    intro l h
    cases l with
    | nil => exact absurd h (by simp [substPatF])
    | cons c t =>
      by_cases hpre : p.isPrefixOf (c :: t)
      · rw [show substPatF p (fuel + 1) (c :: t) =
            '\n' :: substPatF p fuel (t.drop (p.length - 1)) from by
          show (if p.isPrefixOf (c :: t) then _ else _) = _
          rw [if_pos hpre]] at h
        rcases List.mem_cons.mp h with h1 | h1
        · exact Or.inr h1
        · rcases ih _ h1 with h2 | h2
          · exact Or.inl (List.mem_cons_of_mem c (List.drop_subset _ t h2))
          · exact Or.inr h2
      · rw [show substPatF p (fuel + 1) (c :: t) = c :: substPatF p fuel t from by
          show (if p.isPrefixOf (c :: t) then _ else _) = _
          rw [if_neg hpre]] at h
        rcases List.mem_cons.mp h with h1 | h1
        · exact Or.inl (h1 ▸ List.mem_cons_self c t)
        · rcases ih _ h1 with h2 | h2
          · exact Or.inl (List.mem_cons_of_mem c h2)
          · exact Or.inr h2

theorem substPatF_prefix_reflect {p : List Char} :
    ∀ (fuel : Nat) (l q : List Char), l.length ≤ fuel → q ≠ [] → '\n' ∉ q →
      q <+: substPatF p fuel l → q <+: l ∧ q ≠ p := by
  intro fuel
  induction fuel with
  | zero =>
    intro l q hl hq0 hq h
    have hnil : l = [] := List.eq_nil_of_length_eq_zero (by omega)
    subst hnil
    rw [show substPatF p 0 ([] : List Char) = [] from rfl] at h
    exact absurd (List.prefix_nil.mp h) hq0
  | succ fuel ih =>
    intro l q hl hq0 hq h
    cases l with
    | nil =>
      rw [show substPatF p (fuel + 1) ([] : List Char) = [] from rfl] at h
      exact absurd (List.prefix_nil.mp h) hq0
    | cons c t =>
      simp only [List.length_cons] at hl
      by_cases hpre : p.isPrefixOf (c :: t)
      · rw [show substPatF p (fuel + 1) (c :: t) =
            '\n' :: substPatF p fuel (t.drop (p.length - 1)) from by
          show (if p.isPrefixOf (c :: t) then _ else _) = _
          rw [if_pos hpre]] at h
        cases q with
        | nil => exact absurd rfl hq0
        | cons q0 q2 =>
          obtain ⟨hq0eq, _⟩ := List.cons_prefix_cons.mp h
          exact absurd (hq0eq ▸ List.mem_cons_self q0 q2) hq
      · rw [show substPatF p (fuel + 1) (c :: t) = c :: substPatF p fuel t from by
          show (if p.isPrefixOf (c :: t) then _ else _) = _
          rw [if_neg hpre]] at h
        cases q with
        | nil => exact absurd rfl hq0
        | cons q0 q2 =>
          obtain ⟨hq0eq, hq2⟩ := List.cons_prefix_cons.mp h
          subst hq0eq
          by_cases hq2nil : q2 = []
          · subst hq2nil
            refine ⟨List.cons_prefix_cons.mpr ⟨rfl, List.nil_prefix⟩, ?_⟩
            intro hqp
            apply hpre
            rw [← hqp]
            exact List.isPrefixOf_iff_prefix.mpr
              (List.cons_prefix_cons.mpr ⟨rfl, List.nil_prefix⟩)
          · have hq2n : '\n' ∉ q2 := fun hm => hq (List.mem_cons_of_mem _ hm)
            obtain ⟨hq2t, _⟩ := ih t q2 (by omega) hq2nil hq2n hq2
            refine ⟨List.cons_prefix_cons.mpr ⟨rfl, hq2t⟩, ?_⟩
            intro hqp
            apply hpre
            rw [← hqp]
            exact List.isPrefixOf_iff_prefix.mpr
              (List.cons_prefix_cons.mpr ⟨rfl, hq2t⟩)

theorem substPatF_infix_reflect {p : List Char} :
    ∀ (fuel : Nat) (l q : List Char), l.length ≤ fuel → q ≠ [] → '\n' ∉ q →
      q <:+: substPatF p fuel l → q <:+: l ∧ q ≠ p := by
  intro fuel
  induction fuel with
  | zero =>
    intro l q hl hq0 hq h
    have hnil : l = [] := List.eq_nil_of_length_eq_zero (by omega)
    subst hnil
    rw [show substPatF p 0 ([] : List Char) = [] from rfl] at h
    exact absurd (List.eq_nil_of_infix_nil h) hq0
  | succ fuel ih =>
    intro l q hl hq0 hq h
    cases l with
    | nil =>
      rw [show substPatF p (fuel + 1) ([] : List Char) = [] from rfl] at h
      exact absurd (List.eq_nil_of_infix_nil h) hq0
    | cons c t =>
      simp only [List.length_cons] at hl
      by_cases hpre : p.isPrefixOf (c :: t)
      · rw [show substPatF p (fuel + 1) (c :: t) =
            '\n' :: substPatF p fuel (t.drop (p.length - 1)) from by
          show (if p.isPrefixOf (c :: t) then _ else _) = _
          rw [if_pos hpre]] at h
        rcases List.infix_cons_iff.mp h with hpf | hinf
        · cases q with
          | nil => exact absurd rfl hq0
          | cons q0 q2 =>
            obtain ⟨hq0eq, _⟩ := List.cons_prefix_cons.mp hpf
            exact absurd (hq0eq ▸ List.mem_cons_self q0 q2) hq
        · have hdl : (t.drop (p.length - 1)).length ≤ fuel := by
            simp only [List.length_drop]
            omega
          obtain ⟨hq_in, hq_ne⟩ := ih _ q hdl hq0 hq hinf
          exact ⟨hq_in.trans ((List.drop_suffix _ t).isInfix.trans
            (List.suffix_cons c t).isInfix), hq_ne⟩
      · have heq : substPatF p (fuel + 1) (c :: t) = c :: substPatF p fuel t := by
          show (if p.isPrefixOf (c :: t) then _ else _) = _
          rw [if_neg hpre]
        rw [heq] at h
        rcases List.infix_cons_iff.mp h with hpf | hinf
        · rw [← heq] at hpf
          obtain ⟨hq_pre, hq_ne⟩ := substPatF_prefix_reflect (fuel + 1) (c :: t) q
            (by simp only [List.length_cons]; omega) hq0 hq hpf
          exact ⟨hq_pre.isInfix, hq_ne⟩
        · obtain ⟨hq_in, hq_ne⟩ := ih t q (by omega) hq0 hq hinf
          exact ⟨hq_in.trans (List.suffix_cons c t).isInfix, hq_ne⟩

theorem substPatF_eq_self {p : List Char} :
    ∀ (fuel : Nat) (l : List Char), ¬ p <:+: l → substPatF p fuel l = l := by
  intro fuel
  induction fuel with
  | zero =>
    intro l _
    cases l <;> rfl
  | succ fuel ih =>
    intro l h
    cases l with
    | nil => rfl
    | cons c t =>
      have hpre : ¬ p.isPrefixOf (c :: t) := by
        intro hp
        exact h (List.isPrefixOf_iff_prefix.mp hp).isInfix
      show (if p.isPrefixOf (c :: t) then '\n' :: substPatF p fuel (t.drop (p.length - 1))
        else c :: substPatF p fuel t) = c :: t
      rw [if_neg hpre]
      exact congrArg (fun z => c :: z)
        (ih t (fun hin => h (hin.trans (List.suffix_cons c t).isInfix)))

/-- Wrapper for the top-level substitution. -/
theorem substPat_mem {p : List Char} {a : Char} {l : List Char}
    (h : a ∈ substPat p l) : a ∈ l ∨ a = '\n' :=
  substPatF_mem l.length l h

/-- Wrapper for the top-level substitution. -/
theorem substPat_infix_reflect {p q l : List Char} (hq0 : q ≠ []) (hq : '\n' ∉ q)
    (h : q <:+: substPat p l) : q <:+: l ∧ q ≠ p :=
  substPatF_infix_reflect l.length l q le_rfl hq0 hq h

/-- Wrapper for the top-level substitution. -/
theorem substPat_eq_self {p l : List Char} (h : ¬ p <:+: l) : substPat p l = l :=
  substPatF_eq_self l.length l h

theorem matchTagNl_eq_none {x y c : Char} {t : List Char} (hc : c ≠ '<') :
    matchTagNl x y (c :: t) = none := by
  cases t with
  | nil => rfl
  | cons a t2 =>
    cases t2 with
    | nil => rfl
    | cons b t3 =>
      show (if c = '<' ∧ a.toLower = x ∧ b.toLower = y then matchTagTail t3 else none)
        = none
      rw [if_neg (fun hcond => hc hcond.1)]

theorem subTagNlF_eq_self {x y : Char} :
    ∀ (fuel : Nat) (l : List Char), '<' ∉ l → subTagNlF x y fuel l = l := by
  intro fuel
  induction fuel with
  | zero =>
    intro l _
    cases l <;> rfl
  | succ fuel ih =>
    intro l h
    cases l with
    | nil => rfl
    | cons c t =>
      have hc : c ≠ '<' := fun hcc => h (hcc ▸ List.mem_cons_self c t)
      show (match matchTagNl x y (c :: t) with
        | some r => '\n' :: subTagNlF x y fuel r
        | none => c :: subTagNlF x y fuel t) = c :: t
      rw [matchTagNl_eq_none hc]
      exact congrArg (fun z => c :: z) (ih t (fun hm => h (List.mem_cons_of_mem c hm)))

/-- Wrapper for the top-level tag-to-newline pass. -/
theorem subTagNl_eq_self {x y : Char} {l : List Char} (h : '<' ∉ l) :
    subTagNl x y l = l :=
  subTagNlF_eq_self l.length l h

theorem removeTagsF_eq_self :
    ∀ (fuel : Nat) (l : List Char), '<' ∉ l → removeTagsF fuel l = l := by
  intro fuel
  induction fuel with
  | zero =>
    intro l _
    cases l <;> rfl
  | succ fuel ih =>
    intro l h
    cases l with
    | nil => rfl
    | cons c t =>
      have hc : c ≠ '<' := fun hcc => h (hcc ▸ List.mem_cons_self c t)
      show (if c = '<' then
          match splitAtGt t with
          | some (gap, rest) =>
            if gap.isEmpty then c :: removeTagsF fuel t else removeTagsF fuel rest
          | none => c :: t
        else c :: removeTagsF fuel t) = c :: t
      rw [if_neg hc]
      exact congrArg (fun z => c :: z) (ih t (fun hm => h (List.mem_cons_of_mem c hm)))

/-- Wrapper for the top-level removal pass. -/
theorem removeTags_eq_self {l : List Char} (h : '<' ∉ l) : removeTags l = l :=
  removeTagsF_eq_self l.length l h

theorem dropWhile_dropWhile (p : Char → Bool) (l : List Char) :
    (l.dropWhile p).dropWhile p = l.dropWhile p := by
  induction l with
  | nil => rfl
  | cons c t ih =>
    by_cases hc : p c
    · simp only [List.dropWhile_cons, hc, if_true]
      exact ih
    · simp only [List.dropWhile_cons, hc, if_false, Bool.false_eq_true]

theorem dropWhile_eq_self_of_prefix {p : Char → Bool} {b a : List Char}
    (hpre : b <+: a) (ha : a.dropWhile p = a) : b.dropWhile p = b := by
  cases b with
  | nil => rfl
  | cons x t =>
    cases a with
    | nil => exact absurd (List.prefix_nil.mp hpre) (by simp)
    | cons y r =>
      obtain ⟨hxy, _⟩ := List.cons_prefix_cons.mp hpre
      subst hxy
      by_cases hp : p x
      · rw [List.dropWhile_cons, if_pos hp] at ha
        have : (r.dropWhile p).length ≤ r.length := (List.dropWhile_sublist p).length_le
        rw [ha] at this
        simp at this
      · rw [List.dropWhile_cons, if_neg hp]

theorem pyStrip_idem (l : List Char) : pyStrip (pyStrip l) = pyStrip l := by
  have h1 : (l.dropWhile pyWs).dropWhile pyWs = l.dropWhile pyWs :=
    dropWhile_dropWhile pyWs l
  have h2 : (pyStrip l).dropWhile pyWs = pyStrip l :=
    dropWhile_eq_self_of_prefix (pyStrip_prefix_dropWhile l) h1
  have h3 : (pyStrip l).reverse = (l.dropWhile pyWs).reverse.dropWhile pyWs := by
    show (((l.dropWhile pyWs).reverse.dropWhile pyWs).reverse).reverse = _
    rw [List.reverse_reverse]
  have h4 : ((pyStrip l).reverse).dropWhile pyWs = (pyStrip l).reverse := by
    rw [h3]
    exact dropWhile_dropWhile pyWs _
  show ((((pyStrip l).dropWhile pyWs).reverse).dropWhile pyWs).reverse = pyStrip l
  rw [h2, h4, List.reverse_reverse]

/-! ## Claim theorems -/

/-- C1: End-to-end engine scenario.  For the two-VEVENT calendar (one
non-recurring event a month old, one weekly event anchored two weeks
back, reference time this week's Wednesday), the literal engine raises
`TypeError` at the `Event(...)` call of event_fetcher.py line 121 (seven
positional arguments against the five-parameter generated
`Event.__init__`), instead of returning the output the claim describes;
under the row semantics that the call site and docstring document, the
output is exactly the one recurring event shifted to this week's
Wednesday occurrence with recurrence text `"WEEKLY"`. -/
theorem c1_end_to_end_scenario :
    get_events_from_ics scenarioCal wednesdayRef = Except.error event_init_type_error ∧
    pyBindPositional Event_init_params Event_init_defaulted fetcher_Event_call_args = false ∧
    getEventRows scenarioCal wednesdayRef = Except.ok [weeklyRow] ∧
    weeklyRow.recurrence = some { text := "WEEKLY", rrule := "FREQ=WEEKLY" } ∧
    weeklyRow.start = "2024-07-17T09:00:00+00:00" ∧
    weeklyRow.end_ = "2024-07-17T10:00:00+00:00" ∧
    weeklyRow.start_dt = mkUtc 2024 7 17 9 0 0 := by
  refine ⟨by decide, by decide, by decide, by decide, by decide, by decide, by decide⟩

/-- C2: per-event graceful degradation fails in the engine.  For a
calendar containing a VEVENT whose recurrence rule does not parse, the
engine raises (the unguarded `rrulestr` call at event_fetcher.py line
125 under the row semantics; the `TypeError` of line 121 in the literal
engine), aborting the whole request instead of including the event.  The
diagnostic-placeholder fallback the claim describes exists only in
`EventRecurrence.__post_init__`, which the engine's call at line 132
bypasses. -/
theorem c2_recurrence_parse_failure_aborts :
    getEventRows badRuleCal wednesdayRef =
      Except.error "ValueError: invalid FREQ value FOO" ∧
    get_events_from_ics badRuleCal wednesdayRef = Except.error event_init_type_error ∧
    EventRecurrence_post_init "FREQ=FOO" =
      { text := "Invalid rrule: FREQ=FOO", rrule := "FREQ=FOO" } := by
  refine ⟨by decide, by decide, by decide⟩

/-- C10: the describer implemented in `EventRecurrence._rrule_to_text`
(app/event.py) and the module-level `_rrule_to_text`
(app/event_fetcher.py) are extensionally equal. -/
theorem c10_describers_agree (freq : Freq) (interval : Nat) :
    EventRecurrence_rrule_to_text freq interval = fetcher_rrule_to_text freq interval := by
  cases freq <;> rfl

/-- C6: the recurrence-describer policy, first match wins: frequency name
alone at interval 1; BI-WEEKLY / BI-DAILY at interval 2 for weekly/daily;
`EVERY {interval} {FREQUENCY}` otherwise for the four known frequencies;
`REPEATING` for any other frequency.  Stated for the fetcher copy, with
the event.py copy shown to agree. -/
theorem c6_describer_policy (freq : Freq) (interval : Nat) (hpos : 1 ≤ interval) :
    fetcher_rrule_to_text freq interval =
      (match freq with
       | Freq.daily =>
         if interval = 1 then "DAILY"
         else if interval = 2 then "BI-DAILY"
         else "EVERY " ++ toString interval ++ " DAILY"
       | Freq.weekly =>
         if interval = 1 then "WEEKLY"
         else if interval = 2 then "BI-WEEKLY"
         else "EVERY " ++ toString interval ++ " WEEKLY"
       | Freq.monthly =>
         if interval = 1 then "MONTHLY"
         else "EVERY " ++ toString interval ++ " MONTHLY"
       | Freq.yearly =>
         if interval = 1 then "YEARLY"
         else "EVERY " ++ toString interval ++ " YEARLY"
       | _ => "REPEATING") ∧
    EventRecurrence_rrule_to_text freq interval = fetcher_rrule_to_text freq interval := by
  constructor
  · have hD : (" " : String) ++ "DAILY" = " DAILY" := rfl
    have hW : (" " : String) ++ "WEEKLY" = " WEEKLY" := rfl
    have hM : (" " : String) ++ "MONTHLY" = " MONTHLY" := rfl
    have hY : (" " : String) ++ "YEARLY" = " YEARLY" := rfl
    cases freq <;> simp [fetcher_rrule_to_text, String.append_assoc, hD, hW, hM, hY]
  · cases freq <;> rfl

/-- Witness for C6 at frequency MONTHLY, interval 3. -/
theorem c6_describer_policy_witness :
    fetcher_rrule_to_text Freq.monthly 3 = "EVERY 3 MONTHLY" ∧
    EventRecurrence_rrule_to_text Freq.monthly 3 = fetcher_rrule_to_text Freq.monthly 3 := by
  have h := c6_describer_policy Freq.monthly 3 (by decide)
  exact ⟨h.1.trans (by decide), h.2⟩

/-- C4: duration preservation on recurrence shift.  Whenever a recurring
VEVENT produces a row, the row's end is `occurrence + (originalEnd −
originalStart)`, so end − start equals the original duration. -/
theorem c4_duration_preservation (ws : Int) (c : VEvent) (rs : String) (r : Row)
    (hrec : c.rrule = some rs)
    (h : processVEvent ws c = Except.ok (some r)) :
    r.end_dt - r.start_dt = ensure_datetime c.dtend - ensure_datetime c.dtstart ∧
    r.end_dt = r.start_dt + (ensure_datetime c.dtend - ensure_datetime c.dtstart) := by
  cases hp : rrulestr rs (ensure_datetime c.dtstart) with
  | error e => simp [processVEvent, hrec, hp] at h
  | ok rr =>
    cases ha : rruleAfter rr ws with
    | none => simp [processVEvent, hrec, hp, ha] at h
    | some occ =>
      simp only [processVEvent, hrec, hp, ha, Except.ok.injEq, Option.some.injEq] at h
      subst h
      refine ⟨by ring, by ring⟩

/-- Witness for C4: the scenario's weekly event. -/
theorem c4_duration_preservation_witness :
    weeklyRow.end_dt - weeklyRow.start_dt =
      ensure_datetime vevWeekly.dtend - ensure_datetime vevWeekly.dtstart ∧
    weeklyRow.end_dt = weeklyRow.start_dt +
      (ensure_datetime vevWeekly.dtend - ensure_datetime vevWeekly.dtstart) :=
  c4_duration_preservation refWeekStart vevWeekly "FREQ=WEEKLY" weeklyRow rfl (by decide)

/-- C5: the engine's returned list is ordered by ascending `start`:
every adjacent pair of output rows satisfies
`rows[i].start <= rows[i+1].start`. -/
theorem c5_sort_order (cal : List Component) (rt : PyTime) (rows : List Row)
    (h : getEventRows cal rt = Except.ok rows) (i : Nat) (hi : i + 1 < rows.length) :
    (rows.get ⟨i, Nat.lt_of_succ_lt hi⟩).start ≤ (rows.get ⟨i + 1, hi⟩).start := by
  simp only [getEventRows] at h
  cases hcoll : collectRows (processVEvent (week_start (ensure_datetime rt))) cal with
  | error m => rw [hcoll] at h; exact absurd h (by simp)
  | ok rows0 =>
    rw [hcoll] at h
    simp only [Except.ok.injEq] at h
    subst h
    have hp := pySorted_pairwise rows0
    have hle := List.pairwise_iff_get.mp hp ⟨i, Nat.lt_of_succ_lt hi⟩ ⟨i + 1, hi⟩
      (by simp)
    exact rowLe_le hle

/-- Witness for C5: a two-event calendar listed in descending order. -/
theorem c5_sort_order_witness :
    (twoEventRows.get ⟨0, by decide⟩).start ≤ (twoEventRows.get ⟨1, by decide⟩).start :=
  c5_sort_order twoEventCal wednesdayRef twoEventRows (by decide) 0 (by decide)

/-- C3: week-boundary filtering, settled as a code bug.  The `week_start`
computation of lines 104-106 — which does execute, before the VEVENT
loop — is the Monday at 00:00:00 UTC of the week containing the
UTC-normalized reference time (midnight, weekday 0, at most the
reference time, less than a week before it), and under the engine's
documented row semantics the line-135 filter keeps a non-recurring
VEVENT exactly when its normalized start is on or after it.  But the
inclusion half is false of the literal program: the Monday-midnight
boundary event makes the request raise the line-121 `TypeError` (the
constructor-arity bug of C1) instead of appearing in the output. -/
theorem c3_week_boundary_code_bug :
    (∀ rt : PyTime,
      Int.emod (week_start (ensure_datetime rt)) secsPerDay = 0 ∧
      pyWeekday (week_start (ensure_datetime rt)) = 0 ∧
      week_start (ensure_datetime rt) ≤ ensure_datetime rt ∧
      ensure_datetime rt - week_start (ensure_datetime rt) < secsPerWeek) ∧
    ensure_datetime vevMonday.dtstart = week_start (ensure_datetime wednesdayRef) ∧
    get_events_from_ics [Component.vevent vevMonday] wednesdayRef =
      Except.error event_init_type_error ∧
    (∀ (rt ds de : PyTime) (sm : String) (d : Option String),
      getEventRows [Component.vevent (VEvent.mk ds de sm d none)] rt =
        (if week_start (ensure_datetime rt) ≤ ensure_datetime ds then
          Except.ok [initialRow (VEvent.mk ds de sm d none)]
        else Except.ok [])) ∧
    getEventRows [Component.vevent vevMonday] wednesdayRef =
      Except.ok [initialRow vevMonday] ∧
    getEventRows [Component.vevent vevOld] wednesdayRef = Except.ok [] := by
  refine ⟨?_, by decide, by decide, ?_, by decide, by decide⟩
  · intro rt
    simp only [week_start, pyWeekday, timeOfDay, secsPerDay, secsPerWeek]
    generalize ensure_datetime rt = t
    have hwd3 := Int.ediv_add_emod (t / 86400 + 3) 7
    set wd := (t / 86400 + 3) % 7 with hwddef
    have hwd1 : 0 ≤ wd := Int.emod_nonneg _ (by norm_num)
    have hwd2 : wd < 7 := Int.emod_lt_of_pos _ (by norm_num)
    have hD := Int.ediv_add_emod t 86400
    have hD1 : 0 ≤ t % 86400 := Int.emod_nonneg _ (by norm_num)
    have hD2 : t % 86400 < 86400 := Int.emod_lt_of_pos _ (by norm_num)
    have hq := Int.ediv_add_emod (t - 86400 * wd) 86400
    have hq1 : 0 ≤ (t - 86400 * wd) % 86400 := Int.emod_nonneg _ (by norm_num)
    have hq2 : (t - 86400 * wd) % 86400 < 86400 := Int.emod_lt_of_pos _ (by norm_num)
    set q := (t - 86400 * wd) / 86400 with hqdef
    refine ⟨Int.mul_emod_right 86400 q, ?_, by omega, by omega⟩
    rw [Int.mul_ediv_cancel_left q (by norm_num)]
    omega
  · intro rt ds de sm d
    by_cases hcond : week_start (ensure_datetime rt) ≤ ensure_datetime ds
    · rw [if_pos hcond]
      simp [getEventRows, collectRows, processVEvent, hcond, pySorted, insertRow]
    · rw [if_neg hcond]
      simp [getEventRows, collectRows, processVEvent, hcond, pySorted]

/-- C9: immutability, settled as a code bug sharing C1's root cause.  In
the program the engine never successfully constructs an `Event` or
`EventRecurrence` at all: the line-121 call passes seven positional
arguments to the five-parameter generated `Event.__init__`, and the
line-132 call passes the `init=False` field `text` as a keyword, so
every request over a VEVENT aborts with `TypeError` and nothing is
constructed from raw calendar input.  Moreover lines 129-132 are written
to reassign `start`, `end` and `recurrence` on the constructed event, so
under the call site's documented row semantics the appended row differs
from the constructed row in exactly those fields — the engine is not
mutation-free even as intended. -/
theorem c9_immutability_code_bug :
    get_events_from_ics scenarioCal wednesdayRef = Except.error event_init_type_error ∧
    pyBindPositional Event_init_params Event_init_defaulted fetcher_Event_call_args
      = false ∧
    processVEvent refWeekStart vevWeekly = Except.ok (some weeklyRow) ∧
    (initialRow vevWeekly).recurrence = none ∧
    weeklyRow.recurrence = some { text := "WEEKLY", rrule := "FREQ=WEEKLY" } ∧
    weeklyRow.start ≠ (initialRow vevWeekly).start ∧
    weeklyRow.end_ ≠ (initialRow vevWeekly).end_ ∧
    weeklyRow.title = (initialRow vevWeekly).title ∧
    weeklyRow.title_raw = (initialRow vevWeekly).title_raw := by
  refine ⟨by decide, by decide, by decide, by decide, by decide, by decide, by decide,
    by decide, by decide⟩

/-- C7: sanitizer correctness.  The two concrete examples of the claim,
and the universal guarantee: no substring matching the removed-tag
pattern `<[^>]+>` remains in any sanitizer output. -/
theorem c7_sanitizer_correctness :
    clean_html "Line1<br>Line2" = "Line1\nLine2" ∧
    clean_html "<b>bold</b> text" = "bold text" ∧
    ∀ s : String, hasTagB (clean_html s).data = false :=
  ⟨by decide, by decide, fun s => clean_html_list_no_tag s.data⟩

/-- C8 counterexample: the sanitizer is not idempotent.  Removing the tag
`<z>` from `"&#1<z>0;"` reassembles the entity `&#10;`, which only a
second pass rewrites (to a newline that stripping then removes), so
`clean(clean(x)) ≠ clean(x)` at this input. -/
theorem c8_not_idempotent :
    clean_html (clean_html "&#1<z>0;") ≠ clean_html "&#1<z>0;" ∧
    clean_html "&#1<z>0;" = "&#10;" ∧
    clean_html (clean_html "&#1<z>0;") = "" := by
  refine ⟨by decide, by decide, by decide⟩

/-- C8 amended: the sanitizer is idempotent on every input containing no
`<` character (tag removal is then inert, so no entity can be
reassembled). -/
theorem c8_idempotent_on_lt_free (s : String) (hlt : '<' ∉ s.data) :
    clean_html (clean_html s) = clean_html s := by
  have hBr : subTagNl 'b' 'r' s.data = s.data := subTagNl_eq_self hlt
  have hHr : subTagNl 'h' 'r' s.data = s.data := subTagNl_eq_self hlt
  have hu_lt : '<' ∉ substPat ent13 (substPat ent10 s.data) := by
    intro hm
    rcases substPat_mem hm with hm1 | hm1
    · rcases substPat_mem hm1 with hm2 | hm2
      · exact hlt hm2
      · exact absurd hm2 (by decide)
    · exact absurd hm1 (by decide)
  have hclean1 : clean_html_list s.data =
      pyStrip (substPat ent13 (substPat ent10 s.data)) := by
    unfold clean_html_list
    rw [hBr, hHr, removeTags_eq_self hu_lt]
  have hy_lt : '<' ∉ pyStrip (substPat ent13 (substPat ent10 s.data)) :=
    fun hm => hu_lt ((pyStrip_isInfix _).subset hm)
  have hy10 : ¬ ent10 <:+: pyStrip (substPat ent13 (substPat ent10 s.data)) := by
    intro hocc
    have h2 : ent10 <:+: substPat ent13 (substPat ent10 s.data) :=
      hocc.trans (pyStrip_isInfix _)
    have h3 := substPat_infix_reflect (by decide) (by decide) h2
    have h4 := substPat_infix_reflect (by decide) (by decide) h3.1
    exact h4.2 rfl
  have hy13 : ¬ ent13 <:+: pyStrip (substPat ent13 (substPat ent10 s.data)) := by
    intro hocc
    exact (substPat_infix_reflect (by decide) (by decide)
      (hocc.trans (pyStrip_isInfix _))).2 rfl
  have hclean2 : clean_html_list (pyStrip (substPat ent13 (substPat ent10 s.data))) =
      pyStrip (substPat ent13 (substPat ent10 s.data)) := by
    unfold clean_html_list
    rw [subTagNl_eq_self hy_lt, subTagNl_eq_self hy_lt,
        substPat_eq_self hy10, substPat_eq_self hy13, removeTags_eq_self hy_lt]
    exact pyStrip_idem _
  show String.mk (clean_html_list (clean_html s).data) = clean_html s
  have hdata : (clean_html s).data = clean_html_list s.data := rfl
  rw [hdata, hclean1, hclean2]
  show String.mk (pyStrip (substPat ent13 (substPat ent10 s.data))) =
    String.mk (clean_html_list s.data)
  rw [hclean1]

/-- Witness for C8 amended: a `<`-free input with entities. -/
theorem c8_idempotent_on_lt_free_witness :
    clean_html (clean_html "a &#10; b") = clean_html "a &#10; b" :=
  c8_idempotent_on_lt_free "a &#10; b" (by decide)

end IcsApi
